import Mathlib

/-!
Verification of the oi1 visual-obfuscation codec
(`src/core/oi1-algorithm.js`).

The codec maps UTF-8 text to strings over the 4-symbol alphabet
O, 0, I, l (2 bits per symbol, 4 symbols per byte), optionally followed
by a 16-symbol CRC-32 checksum block (the v2 wire format).

Shallow embedding conventions:
  * JS strings holding plaintext are modelled as lists of Unicode scalar
    values (`List Nat`, each value below 0x110000 and not a surrogate);
    ciphertext strings are modelled as `List Char`.
  * Binary strings built from the characters 0 and 1 are modelled as
    `List Bool` (true = 1), most significant bit first, matching
    `byte.toString(2).padStart(8, massaged)` order.
  * 32-bit JS unsigned arithmetic is modelled on `Nat`; every operation
    used by the source (`^`, `>>>`, `& 0xFF`) preserves values below
    2^32, so no extra truncation is required (`x >>> 8` becomes
    `x / 256`, `x & 0xFF` becomes `x % 256`).
  * Fallible operations return `Except`; thrown `Error`s become
    structured error values carrying the data interpolated into the
    JS message.
  * `TextEncoder.encode` / `TextDecoder.decode(..., fatal: true)` are
    the platform UTF-8 codec; they are modelled by `utf8Encode` /
    `utf8Decode` below, standard strict UTF-8 over scalar values.
-/

namespace OI1

/-- BINARY_TO_CHAR: the 2-bit group to symbol map
(00 to O, 01 to 0, 10 to I, 11 to l). -/
def binaryToChar (b1 b2 : Bool) : Char :=
  match b1, b2 with
  | false, false => 'O'
  | false, true  => '0'
  | true,  false => 'I'
  | true,  true  => 'l'

/-- CHAR_TO_BINARY: the symbol to 2-bit group map; `none` models a JS
lookup miss (`undefined`). -/
def charToBinary (c : Char) : Option (Bool × Bool) :=
  if c = 'O' then some (false, false)
  else if c = '0' then some (false, true)
  else if c = 'I' then some (true, false)
  else if c = 'l' then some (true, true)
  else none

/-- VALID_CIPHER_CHARS membership test. -/
def validCipherChar (c : Char) : Bool :=
  c = 'O' || c = '0' || c = 'I' || c = 'l'

/-- Numeric value of one bit. -/
def bitVal (b : Bool) : Nat := if b then 1 else 0

/-- Value of a binary string, most significant bit first
(JS `parseInt(binaryByte, 2)`). -/
def natOfBits (bits : List Bool) : Nat :=
  bits.foldl (fun acc b => 2 * acc + bitVal b) 0

/-- The 8-character binary expansion of a byte, most significant bit
first (JS `byte.toString(2).padStart(8, zero)`; call sites always pass
values below 256, enforced here by the `% 256`). -/
def byteToBits (n : Nat) : List Bool :=
  let b := n % 256
  [b.testBit 7, b.testBit 6, b.testBit 5, b.testBit 4,
   b.testBit 3, b.testBit 2, b.testBit 1, b.testBit 0]

/-- Concatenated binary expansion of a byte array (encode step 3). -/
def bytesToBits : List Nat → List Bool
  | [] => []
  | b :: rest => byteToBits b ++ bytesToBits rest

/-- OI1Encoder._binaryToChars: pad the bit string on the right with 0
to even length, then map each 2-bit group to its symbol. -/
def binaryToChars : List Bool → List Char
  | [] => []
  | [b] => [binaryToChar b false]
  | b1 :: b2 :: rest => binaryToChar b1 b2 :: binaryToChars rest

/-- Binary string accumulated from ciphertext symbols
(decode step 1: `binaryString += CHAR_TO_BINARY[char]`; a lookup miss
contributes nothing, which is unreachable after validation). -/
def charsToBits : List Char → List Bool
  | [] => []
  | c :: rest =>
    (match charToBinary c with
     | some (b1, b2) => [b1, b2]
     | none => []) ++ charsToBits rest

/-- Decode step 2: split the binary string into 8-bit groups and parse
each as a byte; an incomplete trailing group is silently dropped. -/
def bitsToBytes : List Bool → List Nat
  | b1 :: b2 :: b3 :: b4 :: b5 :: b6 :: b7 :: b8 :: rest =>
    natOfBits [b1, b2, b3, b4, b5, b6, b7, b8] :: bitsToBytes rest
  | _ => []

end OI1

namespace CRC32

/-- IEEE 802.3 polynomial 0xEDB88320 (reflected). -/
def polynomial : Nat := 0xEDB88320

/-- One inner iteration of the table generator:
`crc & 1` selects shift-xor versus plain shift. -/
def crcRound (crc : Nat) : Nat :=
  if crc % 2 = 1 then (crc / 2) ^^^ polynomial else crc / 2

/-- CRC32._generateTable entry i: eight `crcRound` iterations on i. -/
def tableEntry (i : Nat) : Nat :=
  crcRound^[8] i

/-- CRC32.calculate: fold each byte into the register starting from
0xFFFFFFFF, complement at the end
(`crc = table[(crc ^ byte) & 0xFF] ^ (crc >>> 8)`). -/
def calculate (bytes : List Nat) : Nat :=
  (bytes.foldl
    (fun crc b => tableEntry ((crc ^^^ b % 256) % 256) ^^^ crc / 256)
    0xFFFFFFFF) ^^^ 0xFFFFFFFF

/-- One byte folded into the register of the textbook bit-at-a-time
CRC-32: xor the byte into the low bits, then run eight shift-xor
rounds.  This is the table-free reference form of the standard
algorithm, used to state conformance. -/
def bitwiseUpdate (crc b : Nat) : Nat :=
  crcRound^[8] (crc ^^^ b % 256)

/-- Reference bit-at-a-time CRC-32 (standard IEEE 802.3 form): initial
value 0xFFFFFFFF, eight shift-xor rounds per byte, final complement. -/
def bitwiseSpec (bytes : List Nat) : Nat :=
  (bytes.foldl bitwiseUpdate 0xFFFFFFFF) ^^^ 0xFFFFFFFF

/-- CRC32.toOI1String: split the checksum into 4 big-endian bytes and
render each as 4 symbols (2 bits per symbol, most significant group
first).  JS `>>>` first truncates its operand to 32 bits. -/
def toOI1String (crc32 : Nat) : List Char :=
  let c := crc32 % 2 ^ 32
  let bytes := [c / 2 ^ 24 % 256, c / 2 ^ 16 % 256, c / 2 ^ 8 % 256, c % 256]
  (bytes.map (fun b => OI1.binaryToChars (OI1.byteToBits b))).flatten

/-- Errors thrown by CRC32.fromOI1String. -/
inductive CrcError where
  /-- Length must be 16 symbols. -/
  | lengthError : CrcError
  /-- A character outside the O0Il alphabet, carrying the character. -/
  | invalidChar (c : Char) : CrcError
deriving DecidableEq, Repr

/-- Character list folded to its 2-bit groups, failing on the first
character outside the alphabet. -/
def charsToBitsE : List Char → Except CrcError (List Bool)
  | [] => .ok []
  | c :: rest =>
    match OI1.charToBinary c with
    | some (b1, b2) => (charsToBitsE rest).map (fun bs => b1 :: b2 :: bs)
    | none => .error (.invalidChar c)

/-- CRC32.fromOI1String: parse 16 symbols back into the unsigned 32-bit
checksum; length must be exactly 16, every character must be in the
alphabet.  The JS bit loop `crc32 |= 1 << (31 - i)` accumulates the same
most-significant-bit-first value as `natOfBits`. -/
def fromOI1String (s : List Char) : Except CrcError Nat :=
  if s.length ≠ 16 then .error .lengthError
  else (charsToBitsE s).map OI1.natOfBits

end CRC32

namespace OI1

/-- Unicode scalar values: below 0x110000 and not a surrogate.  These
are exactly the code points a JS string can hand to `TextEncoder`
without replacement. -/
def validScalar (v : Nat) : Prop :=
  v < 0x110000 ∧ (v < 0xD800 ∨ 0xE000 ≤ v)

instance (v : Nat) : Decidable (validScalar v) := by
  unfold validScalar; infer_instance

/-- UTF-8 bytes of one scalar value (platform `TextEncoder`). -/
def utf8EncodeChar (v : Nat) : List Nat :=
  if v < 0x80 then [v]
  else if v < 0x800 then [0xC0 + v / 64, 0x80 + v % 64]
  else if v < 0x10000 then
    [0xE0 + v / 4096, 0x80 + v / 64 % 64, 0x80 + v % 64]
  else
    [0xF0 + v / 262144, 0x80 + v / 4096 % 64, 0x80 + v / 64 % 64,
     0x80 + v % 64]

/-- UTF-8 bytes of a scalar-value string (platform `TextEncoder`). -/
def utf8Encode : List Nat → List Nat
  | [] => []
  | v :: rest => utf8EncodeChar v ++ utf8Encode rest

/-- Continuation byte test: 10xxxxxx. -/
def utf8Cont (b : Nat) : Prop := 0x80 ≤ b ∧ b < 0xC0

instance (b : Nat) : Decidable (utf8Cont b) := by
  unfold utf8Cont; infer_instance

/-- Decode one UTF-8 scalar: given a lead byte and the remaining
bytes, return the scalar value and the bytes left over.  Strict:
rejects stray continuation bytes, truncated sequences, overlong
encodings, surrogates and values above 0x10FFFF. -/
def utf8DecodeOne (b : Nat) (rest : List Nat) : Option (Nat × List Nat) :=
  if b < 0x80 then some (b, rest)
  else if b < 0xC0 then none
  else if b < 0xE0 then
    match rest with
    | c1 :: rest1 =>
      if utf8Cont c1 then
        let v := (b - 0xC0) * 64 + (c1 - 0x80)
        if 0x80 ≤ v then some (v, rest1) else none
      else none
    | _ => none
  else if b < 0xF0 then
    match rest with
    | c1 :: c2 :: rest2 =>
      if utf8Cont c1 ∧ utf8Cont c2 then
        let v := (b - 0xE0) * 4096 + (c1 - 0x80) * 64 + (c2 - 0x80)
        if 0x800 ≤ v ∧ (v < 0xD800 ∨ 0xE000 ≤ v) then some (v, rest2)
        else none
      else none
    | _ => none
  else if b < 0xF8 then
    match rest with
    | c1 :: c2 :: c3 :: rest3 =>
      if utf8Cont c1 ∧ utf8Cont c2 ∧ utf8Cont c3 then
        let v := (b - 0xF0) * 262144 + (c1 - 0x80) * 4096 +
                 (c2 - 0x80) * 64 + (c3 - 0x80)
        if 0x10000 ≤ v ∧ v < 0x110000 then some (v, rest3) else none
      else none
    | _ => none
  else none

/-- Fuel-indexed UTF-8 decoding loop; one unit of fuel per scalar.
Since every scalar consumes at least one byte, fuel equal to the byte
count always suffices. -/
def utf8DecodeAux : Nat → List Nat → Option (List Nat)
  | _, [] => some []
  | 0, _ :: _ => none
  | fuel + 1, b :: rest =>
    match utf8DecodeOne b rest with
    | some (v, rest2) => (utf8DecodeAux fuel rest2).map (v :: ·)
    | none => none

/-- Strict UTF-8 decoding (platform `TextDecoder` with `fatal: true`):
one scalar at a time via `utf8DecodeOne`. -/
def utf8Decode (l : List Nat) : Option (List Nat) :=
  utf8DecodeAux l.length l

/-- Errors produced by OI1Decoder.validateCiphertext (returned, not
thrown). -/
inductive ValidationError where
  /-- The JS message is: the ciphertext must not be empty. -/
  | emptyInput : ValidationError
  /-- A character outside the alphabet, with its 1-based position
  (the JS message interpolates both). -/
  | invalidChar (c : Char) (position : Nat) : ValidationError
deriving DecidableEq, Repr

/-- Result shape of OI1Decoder.validateCiphertext. -/
structure ValidationResult where
  isValid : Bool
  error : Option ValidationError
deriving DecidableEq, Repr

/-- The scan loop of validateCiphertext: first character outside the
alphabet together with its 1-based position (`i + 1` at index i). -/
def findInvalidChar : List Char → Nat → Option (Char × Nat)
  | [], _ => none
  | c :: rest, i =>
    if validCipherChar c then findInvalidChar rest (i + 1)
    else some (c, i + 1)

/-- OI1Decoder.validateCiphertext: empty input is invalid, otherwise
the first character outside the alphabet is reported with its 1-based
position; never throws. -/
def validateCiphertext (ct : List Char) : ValidationResult :=
  if ct = [] then ⟨false, some .emptyInput⟩
  else
    match findInvalidChar ct 0 with
    | some (c, pos) => ⟨false, some (.invalidChar c pos)⟩
    | none => ⟨true, none⟩

/-- Result shape of OI1Encoder.detectFormat; `none` in the length
fields models the JS fields being absent (`undefined`) in the unknown
case. -/
structure FormatInfo where
  version : String
  hasCRC : Bool
  isValid : Bool
  mainCipherLength : Option Nat
  crcLength : Option Nat
deriving DecidableEq, Repr

/-- OI1Encoder.detectFormat: length-based version inference; v2 is
preferred whenever length exceeds 16 and length minus 16 is a multiple
of 4. -/
def detectFormat (ct : List Char) : FormatInfo :=
  if ct.length = 0 then ⟨"unknown", false, false, none, none⟩
  else if 16 < ct.length ∧ (ct.length - 16) % 4 = 0 then
    ⟨"v2", true, true, some (ct.length - 16), some 16⟩
  else if ct.length % 4 = 0 ∧ 0 < ct.length then
    ⟨"v1", false, true, some ct.length, some 0⟩
  else ⟨"unknown", false, false, none, none⟩

/-- Errors thrown by OI1Decoder.decode (the JS wraps them in a
context message; the kind and interpolated data are preserved). -/
inductive DecodeError where
  /-- Unrecognized format (detectFormat said invalid). -/
  | formatError : DecodeError
  /-- Alphabet validation failed. -/
  | validationError (e : ValidationError) : DecodeError
  /-- CRC32.fromOI1String threw (unreachable from decode). -/
  | crcParseError (e : CRC32.CrcError) : DecodeError
  /-- Strict UTF-8 decoding failed; carries the byte values the JS
  message renders in decimal and hex. -/
  | decodingError (bytes : List Nat) : DecodeError
  /-- CRC mismatch; carries the expected and actual checksums the JS
  message renders in hex. -/
  | integrityError (expected actual : Nat) : DecodeError
deriving DecidableEq, Repr

/-- Result shape of OI1Decoder.decode; the absent crcExpected and
crcActual fields of the empty-input result are `none`. -/
structure DecodeResult where
  plaintext : List Nat
  crcVerified : Bool
  formatVersion : String
  crcExpected : Option Nat
  crcActual : Option Nat
deriving DecidableEq, Repr

/-- OI1Decoder._decodeCipher: symbols to bits to bytes to strict
UTF-8. -/
def decodeCipher (ct : List Char) : Except DecodeError (List Nat) :=
  let bytes := bitsToBytes (charsToBits ct)
  match utf8Decode bytes with
  | some pt => .ok pt
  | none => .error (.decodingError bytes)

/-- OI1Decoder._decodeWithCRC: split off the final 16 symbols, parse
the expected checksum, decode the main cipher, recompute the checksum
over the recovered bytes and compare. -/
def decodeWithCRC (ct : List Char) (fi : FormatInfo) :
    Except DecodeError DecodeResult :=
  let mainCipher := ct.take (fi.mainCipherLength.getD 0)
  let crcString := ct.drop (ct.length - 16)
  match CRC32.fromOI1String crcString with
  | .error e => .error (.crcParseError e)
  | .ok expectedCRC =>
    match decodeCipher mainCipher with
    | .error e => .error e
    | .ok plaintext =>
      let actualCRC := CRC32.calculate (utf8Encode plaintext)
      if actualCRC = expectedCRC then
        .ok ⟨plaintext, true, "v2", some expectedCRC, some actualCRC⟩
      else .error (.integrityError expectedCRC actualCRC)

/-- OI1Decoder._decodeWithoutCRC: plain v1 recovery, no checksum. -/
def decodeWithoutCRC (ct : List Char) :
    Except DecodeError DecodeResult :=
  match decodeCipher ct with
  | .error e => .error e
  | .ok plaintext => .ok ⟨plaintext, false, "v1", none, none⟩

/-- OI1Decoder.decode: empty input short-circuits, then format
detection, then alphabet validation, then version dispatch. -/
def decode (ct : List Char) : Except DecodeError DecodeResult :=
  if ct = [] then .ok ⟨[], false, "empty", none, none⟩
  else
    let fi := detectFormat ct
    if fi.isValid = false then .error .formatError
    else
      match (validateCiphertext ct).error with
      | some e => .error (.validationError e)
      | none =>
        if fi.version = "v2" then decodeWithCRC ct fi
        else decodeWithoutCRC ct

/-- OI1Encoder.encode: empty input yields empty output; otherwise
UTF-8 bytes, checksum, bit expansion, symbol mapping, and the
16-symbol checksum suffix. -/
def encode (s : List Nat) : List Char :=
  if s = [] then []
  else
    let bytes := utf8Encode s
    let crcString := CRC32.toOI1String (CRC32.calculate bytes)
    let mainCipher := binaryToChars (bytesToBits bytes)
    mainCipher ++ crcString

instance {ε α : Type} [DecidableEq ε] [DecidableEq α] :
    DecidableEq (Except ε α) := fun a b =>
  match a, b with
  | .ok x, .ok y =>
    if h : x = y then isTrue (by rw [h])
    else isFalse (by intro hc; cases hc; exact h rfl)
  | .error x, .error y =>
    if h : x = y then isTrue (by rw [h])
    else isFalse (by intro hc; cases hc; exact h rfl)
  | .ok _, .error _ => isFalse (by intro hc; cases hc)
  | .error _, .ok _ => isFalse (by intro hc; cases hc)

/-! Symbol-level round-trip lemmas. -/

theorem charToBinary_binaryToChar (b1 b2 : Bool) :
    charToBinary (binaryToChar b1 b2) = some (b1, b2) := by
  cases b1 <;> cases b2 <;> decide

theorem binaryToChar_charToBinary {c : Char} {b1 b2 : Bool}
    (h : charToBinary c = some (b1, b2)) : binaryToChar b1 b2 = c := by
  unfold charToBinary at h
  split at h
  · cases h; subst_vars; rfl
  · split at h
    · cases h; subst_vars; rfl
    · split at h
      · cases h; subst_vars; rfl
      · split at h
        · cases h; subst_vars; rfl
        · cases h

theorem validCipherChar_iff_charToBinary {c : Char} :
    validCipherChar c = true ↔ (charToBinary c).isSome = true := by
  unfold validCipherChar charToBinary
  split
  next h => subst h; decide
  next h =>
    split
    next h2 => subst h2; decide
    next h2 =>
      split
      next h3 => subst h3; decide
      next h3 =>
        split
        next h4 => subst h4; decide
        next h4 => simp [h, h2, h3, h4]

theorem validCipherChar_binaryToChar (b1 b2 : Bool) :
    validCipherChar (binaryToChar b1 b2) = true := by
  cases b1 <;> cases b2 <;> decide

theorem binaryToChars_append {xs : List Bool} (ys : List Bool)
    (h : xs.length % 2 = 0) :
    binaryToChars (xs ++ ys) = binaryToChars xs ++ binaryToChars ys := by
  induction xs using binaryToChars.induct with
  | case1 => rfl
  | case2 b => simp at h
  | case3 b1 b2 rest ih =>
    simp only [List.length_cons] at h
    simp only [List.cons_append, binaryToChars, ih (by omega), List.append_eq]

theorem charsToBits_append (xs ys : List Char) :
    charsToBits (xs ++ ys) = charsToBits xs ++ charsToBits ys := by
  induction xs with
  | nil => rfl
  | cons c rest ih =>
    simp only [List.cons_append, charsToBits, List.append_eq,
      List.append_assoc, ih]

theorem charsToBits_binaryToChars {bits : List Bool}
    (h : bits.length % 2 = 0) :
    charsToBits (binaryToChars bits) = bits := by
  induction bits using binaryToChars.induct with
  | case1 => rfl
  | case2 b => simp at h
  | case3 b1 b2 rest ih =>
    simp only [List.length_cons] at h
    simp only [binaryToChars, charsToBits, charToBinary_binaryToChar,
      ih (by omega), List.cons_append, List.nil_append]

theorem binaryToChars_charsToBits {m : List Char}
    (h : ∀ c ∈ m, validCipherChar c = true) :
    binaryToChars (charsToBits m) = m := by
  induction m with
  | nil => rfl
  | cons c rest ih =>
    have hc : validCipherChar c = true := h c (by simp)
    rw [validCipherChar_iff_charToBinary] at hc
    rcases ho : charToBinary c with _ | ⟨b1, b2⟩
    · rw [ho] at hc; simp at hc
    · simp only [charsToBits, ho, List.cons_append, List.nil_append,
        binaryToChars, binaryToChar_charToBinary ho]
      rw [ih (fun x hx => h x (by simp [hx]))]

theorem charsToBits_length {m : List Char}
    (h : ∀ c ∈ m, validCipherChar c = true) :
    (charsToBits m).length = 2 * m.length := by
  induction m with
  | nil => rfl
  | cons c rest ih =>
    have hc : validCipherChar c = true := h c (by simp)
    rw [validCipherChar_iff_charToBinary] at hc
    rcases ho : charToBinary c with _ | ⟨b1, b2⟩
    · rw [ho] at hc; simp at hc
    · simp only [charsToBits, ho, List.cons_append, List.nil_append,
        List.length_cons, ih (fun x hx => h x (by simp [hx]))]
      omega

theorem bitVal_testBit (m k : Nat) :
    bitVal (m.testBit k) = m / 2 ^ k % 2 := by
  rw [Nat.testBit_to_div_mod]
  rcases Nat.mod_two_eq_zero_or_one (m / 2 ^ k) with h | h <;>
    simp [h, bitVal]

set_option maxHeartbeats 1000000 in
theorem natOfBits_testBits (m : Nat) :
    natOfBits [m.testBit 7, m.testBit 6, m.testBit 5, m.testBit 4,
      m.testBit 3, m.testBit 2, m.testBit 1, m.testBit 0] = m % 256 := by
  simp only [natOfBits, List.foldl, bitVal_testBit]
  omega

theorem natOfBits_byteToBits (b : Nat) :
    natOfBits (byteToBits b) = b % 256 := by
  simp only [byteToBits]
  rw [natOfBits_testBits]
  omega

theorem byteToBits_length (b : Nat) : (byteToBits b).length = 8 := rfl

theorem byteToBits_natOfBits (b1 b2 b3 b4 b5 b6 b7 b8 : Bool) :
    byteToBits (natOfBits [b1, b2, b3, b4, b5, b6, b7, b8]) =
      [b1, b2, b3, b4, b5, b6, b7, b8] := by
  revert b1 b2 b3 b4 b5 b6 b7 b8; decide

theorem bitsToBytes_bytesToBits (bs : List Nat) :
    bitsToBytes (bytesToBits bs) = bs.map (· % 256) := by
  induction bs with
  | nil => rfl
  | cons b rest ih =>
    show bitsToBytes (byteToBits b ++ bytesToBits rest) = _
    simp only [byteToBits, List.cons_append, List.nil_append,
      List.append_eq, bitsToBytes, natOfBits_testBits, List.map, ih]
    congr 1
    omega

theorem bytesToBits_length (bs : List Nat) :
    (bytesToBits bs).length = 8 * bs.length := by
  induction bs with
  | nil => rfl
  | cons b rest ih =>
    simp only [bytesToBits, List.length_append, byteToBits_length, ih,
      List.length_cons]
    omega

theorem bytesToBits_bitsToBytes :
    ∀ bits : List Bool, bits.length % 8 = 0 →
      bytesToBits (bitsToBytes bits) = bits
  | [], _ => rfl
  | b1 :: b2 :: b3 :: b4 :: b5 :: b6 :: b7 :: b8 :: rest, h => by
    have hr : rest.length % 8 = 0 := by
      simp only [List.length_cons] at h; omega
    simp only [bitsToBytes, bytesToBits, byteToBits_natOfBits,
      bytesToBits_bitsToBytes rest hr, List.cons_append, List.nil_append]
  | [_], h => by simp at h
  | [_, _], h => by simp at h
  | [_, _, _], h => by simp at h
  | [_, _, _, _], h => by simp at h
  | [_, _, _, _, _], h => by simp at h
  | [_, _, _, _, _, _], h => by simp at h
  | [_, _, _, _, _, _, _], h => by simp at h

theorem bitsToBytes_length {bits : List Bool} (h : bits.length % 8 = 0) :
    8 * (bitsToBytes bits).length = bits.length := by
  conv_rhs => rw [← bytesToBits_bitsToBytes bits h]
  rw [bytesToBits_length]

theorem binaryToChars_length {bits : List Bool}
    (h : bits.length % 2 = 0) :
    (binaryToChars bits).length = bits.length / 2 := by
  induction bits using binaryToChars.induct with
  | case1 => rfl
  | case2 b => simp at h
  | case3 b1 b2 rest ih =>
    simp only [List.length_cons] at h
    simp only [binaryToChars, List.length_cons, ih (by omega)]
    omega

theorem binaryToChars_valid {bits : List Bool} :
    ∀ c ∈ binaryToChars bits, validCipherChar c = true := by
  induction bits using binaryToChars.induct with
  | case1 => intro c hc; simp [binaryToChars] at hc
  | case2 b =>
    intro c hc
    simp only [binaryToChars, List.mem_singleton] at hc
    subst hc; exact validCipherChar_binaryToChar b false
  | case3 b1 b2 rest ih =>
    intro c hc
    simp only [binaryToChars, List.mem_cons] at hc
    rcases hc with hc | hc
    · subst hc; exact validCipherChar_binaryToChar b1 b2
    · exact ih c hc

end OI1

namespace CRC32

/-! Equivalence of the table-driven fold with the textbook
bit-at-a-time CRC-32. -/

theorem xor_two_mul_mod_two (x z : Nat) : (x ^^^ 2 * z) % 2 = x % 2 := by
  have h := @Nat.xor_mod_two_eq_one x (2 * z)
  have h2 : 2 * z % 2 = 0 := Nat.mul_mod_right 2 z
  rw [h2] at h
  rcases Nat.mod_two_eq_zero_or_one (x ^^^ 2 * z) with hy | hy <;>
    rcases Nat.mod_two_eq_zero_or_one x with hx | hx <;>
    rw [hy, hx] <;> rw [hy, hx] at h <;> simp at h ⊢

theorem crcRound_xor_two_mul (x z : Nat) :
    crcRound (x ^^^ 2 * z) = crcRound x ^^^ z := by
  unfold crcRound
  rw [xor_two_mul_mod_two, Nat.xor_div_two,
    show 2 * z / 2 = z by omega]
  rcases Nat.mod_two_eq_zero_or_one x with h | h
  · rw [if_neg (by omega), if_neg (by omega)]
  · rw [if_pos h, if_pos h, Nat.xor_assoc, Nat.xor_assoc,
      Nat.xor_comm z polynomial]

theorem crcRound_iter_xor (n : Nat) :
    ∀ x z, crcRound^[n] (x ^^^ 2 ^ n * z) = crcRound^[n] x ^^^ z := by
  induction n with
  | zero => intro x z; simp
  | succ n ih =>
    intro x z
    rw [Function.iterate_succ_apply, Function.iterate_succ_apply,
      show 2 ^ (n + 1) * z = 2 * (2 ^ n * z) by ring,
      crcRound_xor_two_mul, ih]

theorem xor_div_two_pow (a b : Nat) :
    ∀ k, (a ^^^ b) / 2 ^ k = a / 2 ^ k ^^^ b / 2 ^ k := by
  intro k
  induction k generalizing a b with
  | zero => simp
  | succ k ih =>
    simp only [pow_succ, ← Nat.div_div_eq_div_mul]
    rw [ih, Nat.xor_div_two]

theorem mod_xor_mul_div (a k : Nat) :
    a % 2 ^ k ^^^ 2 ^ k * (a / 2 ^ k) = a := by
  apply Nat.eq_of_testBit_eq
  intro i
  rw [Nat.testBit_xor, Nat.testBit_mod_two_pow,
    show 2 ^ k * (a / 2 ^ k) = 2 ^ k * (a / 2 ^ k) + 0 by ring,
    Nat.testBit_mul_pow_two_add _ (Nat.pos_pow_of_pos k (by omega)) i]
  by_cases hik : i < k
  · simp [hik]
  · have hsh : a / 2 ^ k = a >>> k := (Nat.shiftRight_eq_div_pow a k).symm
    rw [if_neg hik, hsh, Nat.testBit_shiftRight,
      show k + (i - k) = i from by omega]
    simp [hik]

theorem tableFold_eq_bitwiseUpdate (c b : Nat) :
    tableEntry ((c ^^^ b % 256) % 256) ^^^ c / 256 = bitwiseUpdate c b := by
  unfold bitwiseUpdate tableEntry
  have hdiv : (c ^^^ b % 256) / 256 = c / 256 := by
    rw [show (256 : Nat) = 2 ^ 8 by norm_num, xor_div_two_pow,
      Nat.div_eq_of_lt (Nat.mod_lt b (by norm_num))]
    simp
  conv_rhs =>
    rw [← mod_xor_mul_div (c ^^^ b % 256) 8,
      show (2 : Nat) ^ 8 = 256 by norm_num]
  rw [show (256 : Nat) = 2 ^ 8 by norm_num] at hdiv ⊢
  rw [crcRound_iter_xor, hdiv]

theorem calculate_eq_bitwiseSpec (bytes : List Nat) :
    calculate bytes = bitwiseSpec bytes := by
  unfold calculate bitwiseSpec
  have hstep :
      (fun crc b => tableEntry ((crc ^^^ b % 256) % 256) ^^^ crc / 256) =
        bitwiseUpdate := by
    funext c b
    exact tableFold_eq_bitwiseUpdate c b
  rw [hstep]

theorem crcRound_lt (x : Nat) (h : x < 2 ^ 32) : crcRound x < 2 ^ 32 := by
  unfold crcRound
  split
  · exact Nat.xor_lt_two_pow (by omega) (by norm_num [polynomial])
  · omega

theorem crcRound_iter_lt (n x : Nat) (h : x < 2 ^ 32) :
    crcRound^[n] x < 2 ^ 32 := by
  induction n generalizing x with
  | zero => simpa using h
  | succ n ih =>
    rw [Function.iterate_succ_apply]
    exact ih _ (crcRound_lt x h)

theorem calculate_lt (bytes : List Nat) : calculate bytes < 2 ^ 32 := by
  unfold calculate
  have hfold : ∀ (l : List Nat) (acc : Nat), acc < 2 ^ 32 →
      l.foldl
        (fun crc b => tableEntry ((crc ^^^ b % 256) % 256) ^^^ crc / 256)
        acc < 2 ^ 32 := by
    intro l
    induction l with
    | nil => intro acc h; simpa using h
    | cons b rest ih =>
      intro acc h
      simp only [List.foldl]
      apply ih
      exact Nat.xor_lt_two_pow (crcRound_iter_lt 8 _ (by omega)) (by omega)
  exact Nat.xor_lt_two_pow (hfold _ _ (by norm_num)) (by norm_num)

end CRC32

namespace OI1

/-! UTF-8 round-trip lemmas. -/

theorem utf8EncodeChar_lt_256 {v : Nat} (hv : validScalar v) :
    ∀ b ∈ utf8EncodeChar v, b < 256 := by
  obtain ⟨hlt, _⟩ := hv
  intro b hb
  unfold utf8EncodeChar at hb
  by_cases h1 : v < 0x80
  · rw [if_pos h1] at hb
    simp only [List.mem_singleton] at hb
    omega
  · rw [if_neg h1] at hb
    by_cases h2 : v < 0x800
    · rw [if_pos h2] at hb
      simp only [List.mem_cons, List.not_mem_nil, or_false] at hb
      rcases hb with hb | hb <;> omega
    · rw [if_neg h2] at hb
      by_cases h3 : v < 0x10000
      · rw [if_pos h3] at hb
        simp only [List.mem_cons, List.not_mem_nil, or_false] at hb
        rcases hb with hb | hb | hb <;> omega
      · rw [if_neg h3] at hb
        simp only [List.mem_cons, List.not_mem_nil, or_false] at hb
        rcases hb with hb | hb | hb | hb <;> omega

theorem utf8EncodeChar_ne_nil (v : Nat) : utf8EncodeChar v ≠ [] := by
  unfold utf8EncodeChar
  split
  · simp
  · split
    · simp
    · split <;> simp

/-- Soundness of `utf8DecodeOne`: a decoded scalar is valid and
re-encodes to exactly the bytes consumed. -/
theorem utf8DecodeOne_sound {b : Nat} {rest : List Nat} {v : Nat}
    {rest2 : List Nat} (h : utf8DecodeOne b rest = some (v, rest2)) :
    validScalar v ∧ utf8EncodeChar v ++ rest2 = b :: rest := by
  unfold utf8DecodeOne at h
  by_cases h1 : b < 0x80
  · rw [if_pos h1] at h
    simp only [Option.some.injEq, Prod.mk.injEq] at h
    obtain ⟨hv, hr⟩ := h
    subst hv; subst hr
    refine ⟨⟨by omega, by omega⟩, ?_⟩
    unfold utf8EncodeChar
    rw [if_pos h1]
    rfl
  · rw [if_neg h1] at h
    by_cases h2 : b < 0xC0
    · rw [if_pos h2] at h; cases h
    · rw [if_neg h2] at h
      by_cases h3 : b < 0xE0
      · rw [if_pos h3] at h
        rcases rest with _ | ⟨c1, rest1⟩
        · simp at h
        · by_cases hc1 : utf8Cont c1
          · obtain ⟨hc1a, hc1b⟩ := hc1
            simp only [if_pos (show utf8Cont c1 from ⟨hc1a, hc1b⟩)] at h
            by_cases hge : 0x80 ≤ (b - 0xC0) * 64 + (c1 - 0x80)
            · rw [if_pos hge] at h
              simp only [Option.some.injEq, Prod.mk.injEq] at h
              obtain ⟨hv, hr⟩ := h
              subst hr
              refine ⟨⟨by omega, by omega⟩, ?_⟩
              unfold utf8EncodeChar
              rw [if_neg (by omega), if_pos (by omega)]
              simp only [List.cons_append, List.nil_append, List.cons.injEq]
              refine ⟨by omega, by omega, trivial⟩
            · rw [if_neg hge] at h; cases h
          · simp only [if_neg hc1] at h; cases h
      · rw [if_neg h3] at h
        by_cases h4 : b < 0xF0
        · rw [if_pos h4] at h
          rcases rest with _ | ⟨c1, _ | ⟨c2, rest2x⟩⟩
          · simp at h
          · simp at h
          · by_cases hcc : utf8Cont c1 ∧ utf8Cont c2
            · obtain ⟨⟨hc1a, hc1b⟩, hc2a, hc2b⟩ := hcc
              simp only [if_pos
                (show utf8Cont c1 ∧ utf8Cont c2 from
                  ⟨⟨hc1a, hc1b⟩, hc2a, hc2b⟩)] at h
              by_cases hrng : 0x800 ≤ (b - 0xE0) * 4096 +
                  (c1 - 0x80) * 64 + (c2 - 0x80) ∧
                  ((b - 0xE0) * 4096 + (c1 - 0x80) * 64 + (c2 - 0x80) <
                    0xD800 ∨
                   0xE000 ≤ (b - 0xE0) * 4096 + (c1 - 0x80) * 64 +
                    (c2 - 0x80))
              · rw [if_pos hrng] at h
                simp only [Option.some.injEq, Prod.mk.injEq] at h
                obtain ⟨hv, hr⟩ := h
                subst hr
                obtain ⟨hrng1, hrng2⟩ := hrng
                refine ⟨⟨by omega, by omega⟩, ?_⟩
                unfold utf8EncodeChar
                rw [if_neg (by omega), if_neg (by omega), if_pos (by omega)]
                simp only [List.cons_append, List.nil_append,
                  List.cons.injEq]
                refine ⟨by omega, by omega, by omega, trivial⟩
              · rw [if_neg hrng] at h; cases h
            · simp only [if_neg hcc] at h; cases h
        · rw [if_neg h4] at h
          by_cases h5 : b < 0xF8
          · rw [if_pos h5] at h
            rcases rest with _ | ⟨c1, _ | ⟨c2, _ | ⟨c3, rest3x⟩⟩⟩
            · simp at h
            · simp at h
            · simp at h
            · by_cases hcc : utf8Cont c1 ∧ utf8Cont c2 ∧ utf8Cont c3
              · obtain ⟨⟨hc1a, hc1b⟩, ⟨hc2a, hc2b⟩, hc3a, hc3b⟩ := hcc
                simp only [if_pos
                  (show utf8Cont c1 ∧ utf8Cont c2 ∧ utf8Cont c3 from
                    ⟨⟨hc1a, hc1b⟩, ⟨hc2a, hc2b⟩, hc3a, hc3b⟩)] at h
                by_cases hrng : 0x10000 ≤ (b - 0xF0) * 262144 +
                    (c1 - 0x80) * 4096 + (c2 - 0x80) * 64 + (c3 - 0x80) ∧
                    (b - 0xF0) * 262144 + (c1 - 0x80) * 4096 +
                    (c2 - 0x80) * 64 + (c3 - 0x80) < 0x110000
                · rw [if_pos hrng] at h
                  simp only [Option.some.injEq, Prod.mk.injEq] at h
                  obtain ⟨hv, hr⟩ := h
                  subst hr
                  obtain ⟨hrng1, hrng2⟩ := hrng
                  refine ⟨⟨by omega, by omega⟩, ?_⟩
                  unfold utf8EncodeChar
                  rw [if_neg (by omega), if_neg (by omega),
                    if_neg (by omega)]
                  simp only [List.cons_append, List.nil_append,
                    List.cons.injEq]
                  refine ⟨by omega, by omega, by omega, by omega, trivial⟩
                · rw [if_neg hrng] at h; cases h
              · simp only [if_neg hcc] at h; cases h
          · rw [if_neg h5] at h; cases h

/-- A successful single-scalar decode leaves at most the input behind. -/
theorem utf8DecodeOne_length {b : Nat} {rest : List Nat} {v : Nat}
    {rest2 : List Nat} (h : utf8DecodeOne b rest = some (v, rest2)) :
    rest2.length ≤ rest.length := by
  have h2 := (utf8DecodeOne_sound h).2
  have hne := utf8EncodeChar_ne_nil v
  have hlen := congrArg List.length h2
  simp only [List.length_append, List.length_cons] at hlen
  rcases henc : utf8EncodeChar v with _ | ⟨x, xs⟩
  · exact absurd henc hne
  · rw [henc] at hlen
    simp only [List.length_cons] at hlen
    omega

/-- The fuel argument of `utf8DecodeAux` is irrelevant once it covers
the byte count. -/
theorem utf8DecodeAux_fuel (f1 : Nat) :
    ∀ (f2 : Nat) (l : List Nat), l.length ≤ f1 → l.length ≤ f2 →
      utf8DecodeAux f1 l = utf8DecodeAux f2 l := by
  induction f1 with
  | zero =>
    intro f2 l h1 h2
    have : l = [] := List.eq_nil_of_length_eq_zero (by omega)
    subst this
    cases f2 <;> rfl
  | succ f1 ih =>
    intro f2 l h1 h2
    rcases l with _ | ⟨b, rest⟩
    · cases f2 <;> rfl
    · rcases f2 with _ | f2
      · simp at h2
      · show (match utf8DecodeOne b rest with
          | some (v, rest2) => (utf8DecodeAux f1 rest2).map (v :: ·)
          | none => none) =
          (match utf8DecodeOne b rest with
          | some (v, rest2) => (utf8DecodeAux f2 rest2).map (v :: ·)
          | none => none)
        rcases hd : utf8DecodeOne b rest with _ | ⟨v, rest2⟩
        · rfl
        · have hlen := utf8DecodeOne_length hd
          simp only [List.length_cons] at h1 h2
          show (utf8DecodeAux f1 rest2).map (v :: ·) =
            (utf8DecodeAux f2 rest2).map (v :: ·)
          rw [ih f2 rest2 (by omega) (by omega)]

/-- Unfolding equation for `utf8Decode` on a nonempty list. -/
theorem utf8Decode_cons (b : Nat) (rest : List Nat) :
    utf8Decode (b :: rest) =
      match utf8DecodeOne b rest with
      | some (v, rest2) => (utf8Decode rest2).map (v :: ·)
      | none => none := by
  show utf8DecodeAux (b :: rest).length (b :: rest) = _
  simp only [List.length_cons]
  show (match utf8DecodeOne b rest with
    | some (v, rest2) => (utf8DecodeAux rest.length rest2).map (v :: ·)
    | none => none) = _
  rcases hd : utf8DecodeOne b rest with _ | ⟨v, rest2⟩
  · rfl
  · have hlen := utf8DecodeOne_length hd
    show (utf8DecodeAux rest.length rest2).map (v :: ·) = _
    rw [utf8DecodeAux_fuel rest.length rest2.length rest2 hlen (le_refl _)]
    rfl

/-- Decoding after `utf8EncodeChar`: the encoded scalar is recovered
and decoding continues on the remaining bytes. -/
theorem utf8DecodeOne_encode {v : Nat} (hv : validScalar v)
    (tl : List Nat) :
    ∃ b bs, utf8EncodeChar v = b :: bs ∧
      utf8DecodeOne b (bs ++ tl) = some (v, tl) := by
  obtain ⟨hlt, hsurr⟩ := hv
  by_cases h1 : v < 0x80
  · refine ⟨v, [], by simp [utf8EncodeChar, if_pos h1], ?_⟩
    unfold utf8DecodeOne
    rw [if_pos h1]
    simp
  · by_cases h2 : v < 0x800
    · refine ⟨0xC0 + v / 64, [0x80 + v % 64],
        by simp [utf8EncodeChar, if_neg h1, if_pos h2], ?_⟩
      unfold utf8DecodeOne
      simp only [List.cons_append, List.nil_append,
        if_neg (show ¬ (0xC0 + v / 64 < 0x80) by omega),
        if_neg (show ¬ (0xC0 + v / 64 < 0xC0) by omega),
        if_pos (show 0xC0 + v / 64 < 0xE0 by omega),
        if_pos (show utf8Cont (0x80 + v % 64) from ⟨by omega, by omega⟩),
        if_pos (show 0x80 ≤ (0xC0 + v / 64 - 0xC0) * 64 +
          (0x80 + v % 64 - 0x80) by omega)]
      rw [show (0xC0 + v / 64 - 0xC0) * 64 + (0x80 + v % 64 - 0x80) = v
        by omega]
    · by_cases h3 : v < 0x10000
      · refine ⟨0xE0 + v / 4096, [0x80 + v / 64 % 64, 0x80 + v % 64],
          by simp [utf8EncodeChar, if_neg h1, if_neg h2, if_pos h3], ?_⟩
        unfold utf8DecodeOne
        simp only [List.cons_append, List.nil_append,
          if_neg (show ¬ (0xE0 + v / 4096 < 0x80) by omega),
          if_neg (show ¬ (0xE0 + v / 4096 < 0xC0) by omega),
          if_neg (show ¬ (0xE0 + v / 4096 < 0xE0) by omega),
          if_pos (show 0xE0 + v / 4096 < 0xF0 by omega),
          if_pos (show utf8Cont (0x80 + v / 64 % 64) ∧
              utf8Cont (0x80 + v % 64) from
            ⟨⟨by omega, by omega⟩, by omega, by omega⟩),
          if_pos (show 0x800 ≤ (0xE0 + v / 4096 - 0xE0) * 4096 +
              (0x80 + v / 64 % 64 - 0x80) * 64 + (0x80 + v % 64 - 0x80) ∧
              ((0xE0 + v / 4096 - 0xE0) * 4096 +
               (0x80 + v / 64 % 64 - 0x80) * 64 +
               (0x80 + v % 64 - 0x80) < 0xD800 ∨
               0xE000 ≤ (0xE0 + v / 4096 - 0xE0) * 4096 +
               (0x80 + v / 64 % 64 - 0x80) * 64 + (0x80 + v % 64 - 0x80))
            by omega)]
        rw [show (0xE0 + v / 4096 - 0xE0) * 4096 +
          (0x80 + v / 64 % 64 - 0x80) * 64 + (0x80 + v % 64 - 0x80) = v
          by omega]
      · refine ⟨0xF0 + v / 262144,
          [0x80 + v / 4096 % 64, 0x80 + v / 64 % 64, 0x80 + v % 64],
          by simp [utf8EncodeChar, if_neg h1, if_neg h2, if_neg h3], ?_⟩
        unfold utf8DecodeOne
        simp only [List.cons_append, List.nil_append,
          if_neg (show ¬ (0xF0 + v / 262144 < 0x80) by omega),
          if_neg (show ¬ (0xF0 + v / 262144 < 0xC0) by omega),
          if_neg (show ¬ (0xF0 + v / 262144 < 0xE0) by omega),
          if_neg (show ¬ (0xF0 + v / 262144 < 0xF0) by omega),
          if_pos (show 0xF0 + v / 262144 < 0xF8 by omega),
          if_pos (show utf8Cont (0x80 + v / 4096 % 64) ∧
              utf8Cont (0x80 + v / 64 % 64) ∧ utf8Cont (0x80 + v % 64) from
            ⟨⟨by omega, by omega⟩, ⟨by omega, by omega⟩, by omega,
             by omega⟩),
          if_pos (show 0x10000 ≤ (0xF0 + v / 262144 - 0xF0) * 262144 +
              (0x80 + v / 4096 % 64 - 0x80) * 4096 +
              (0x80 + v / 64 % 64 - 0x80) * 64 + (0x80 + v % 64 - 0x80) ∧
              (0xF0 + v / 262144 - 0xF0) * 262144 +
              (0x80 + v / 4096 % 64 - 0x80) * 4096 +
              (0x80 + v / 64 % 64 - 0x80) * 64 +
              (0x80 + v % 64 - 0x80) < 0x110000 by omega)]
        rw [show (0xF0 + v / 262144 - 0xF0) * 262144 +
          (0x80 + v / 4096 % 64 - 0x80) * 4096 +
          (0x80 + v / 64 % 64 - 0x80) * 64 + (0x80 + v % 64 - 0x80) = v
          by omega]

/-- Decoding after encoding one scalar prepends that scalar. -/
theorem utf8Decode_encodeChar_append {v : Nat} (hv : validScalar v)
    (tl : List Nat) :
    utf8Decode (utf8EncodeChar v ++ tl) = (utf8Decode tl).map (v :: ·) := by
  obtain ⟨b, bs, henc, hdec⟩ := utf8DecodeOne_encode hv tl
  rw [henc, List.cons_append, utf8Decode_cons, hdec]

/-- Strict decoding inverts encoding on valid scalar strings. -/
theorem utf8Decode_utf8Encode {s : List Nat}
    (hs : ∀ v ∈ s, validScalar v) :
    utf8Decode (utf8Encode s) = some s := by
  induction s with
  | nil => rfl
  | cons v rest ih =>
    show utf8Decode (utf8EncodeChar v ++ utf8Encode rest) = _
    rw [utf8Decode_encodeChar_append (hs v (by simp)),
      ih (fun x hx => hs x (by simp [hx]))]
    rfl

/-- Encoding inverts strict decoding: decoded strings re-encode to the
original bytes. -/
theorem utf8Encode_utf8Decode : ∀ (bs s : List Nat),
    utf8Decode bs = some s → utf8Encode s = bs
  | [], s, h => by
    simp only [utf8Decode, utf8DecodeAux, Option.some.injEq] at h
    subst h
    rfl
  | b :: rest, s, h => by
    rw [utf8Decode_cons] at h
    rcases hd : utf8DecodeOne b rest with _ | ⟨v, rest2⟩
    · rw [hd] at h; cases h
    · rw [hd] at h
      change (utf8Decode rest2).map (v :: ·) = some s at h
      rcases hrec : utf8Decode rest2 with _ | s2
      · rw [hrec] at h; cases h
      · rw [hrec] at h
        simp only [Option.map_some', Option.some.injEq] at h
        subst h
        show utf8EncodeChar v ++ utf8Encode s2 = b :: rest
        rw [utf8Encode_utf8Decode rest2 s2 hrec,
          (utf8DecodeOne_sound hd).2]
termination_by bs _ _ => bs.length
decreasing_by
  have := utf8DecodeOne_length hd
  simp only [List.length_cons]
  omega

end OI1

namespace OI1

/-! Checksum symbol-string lemmas. -/

theorem natOfBits_foldl (ys : List Bool) : ∀ acc : Nat,
    ys.foldl (fun a b => 2 * a + bitVal b) acc =
      acc * 2 ^ ys.length + natOfBits ys := by
  induction ys with
  | nil => intro acc; simp [natOfBits]
  | cons y ys ih =>
    intro acc
    show ys.foldl _ (2 * acc + bitVal y) = _
    rw [ih (2 * acc + bitVal y)]
    have h2 : natOfBits (y :: ys) = bitVal y * 2 ^ ys.length + natOfBits ys := by
      show ys.foldl _ (2 * 0 + bitVal y) = _
      rw [ih (2 * 0 + bitVal y)]
      ring
    rw [h2, List.length_cons]
    ring

theorem natOfBits_append (xs ys : List Bool) :
    natOfBits (xs ++ ys) = natOfBits xs * 2 ^ ys.length + natOfBits ys := by
  show (xs ++ ys).foldl _ 0 = _
  rw [List.foldl_append, natOfBits_foldl]
  rfl

theorem binaryToChars_byteToBits_length (b : Nat) :
    (binaryToChars (byteToBits b)).length = 4 := by
  rw [binaryToChars_length (by rw [byteToBits_length]), byteToBits_length]

theorem toOI1String_eq (c : Nat) :
    CRC32.toOI1String c =
      binaryToChars (byteToBits (c % 2 ^ 32 / 2 ^ 24 % 256)) ++
      binaryToChars (byteToBits (c % 2 ^ 32 / 2 ^ 16 % 256)) ++
      binaryToChars (byteToBits (c % 2 ^ 32 / 2 ^ 8 % 256)) ++
      binaryToChars (byteToBits (c % 2 ^ 32 % 256)) := by
  unfold CRC32.toOI1String
  simp [List.flatten, List.append_assoc]

theorem toOI1String_length (c : Nat) :
    (CRC32.toOI1String c).length = 16 := by
  rw [toOI1String_eq]
  simp [binaryToChars_byteToBits_length]

theorem toOI1String_valid (c : Nat) :
    ∀ ch ∈ CRC32.toOI1String c, validCipherChar ch = true := by
  rw [toOI1String_eq]
  intro ch hch
  simp only [List.append_assoc, List.mem_append] at hch
  rcases hch with h | h | h | h <;> exact binaryToChars_valid ch h

theorem charsToBitsE_ok {s : List Char}
    (h : ∀ ch ∈ s, validCipherChar ch = true) :
    CRC32.charsToBitsE s = .ok (charsToBits s) := by
  induction s with
  | nil => rfl
  | cons c rest ih =>
    have hc : validCipherChar c = true := h c (by simp)
    rw [validCipherChar_iff_charToBinary] at hc
    rcases ho : charToBinary c with _ | ⟨b1, b2⟩
    · rw [ho] at hc; simp at hc
    · show (match charToBinary c with
        | some (b1, b2) =>
          (CRC32.charsToBitsE rest).map (fun bs => b1 :: b2 :: bs)
        | none => .error (.invalidChar c)) = _
      rw [ho, ih (fun x hx => h x (by simp [hx]))]
      simp only [charsToBits, ho, Except.map, List.cons_append,
        List.nil_append]

theorem charsToBitsE_err {s : List Char} {c : Char} (hc : c ∈ s)
    (hbad : validCipherChar c = false) :
    ∃ ch, validCipherChar ch = false ∧
      CRC32.charsToBitsE s = .error (.invalidChar ch) := by
  induction s with
  | nil => exact absurd hc (List.not_mem_nil c)
  | cons d rest ih =>
    rcases hv : charToBinary d with _ | ⟨b1, b2⟩
    · refine ⟨d, ?_, ?_⟩
      · by_contra hcon
        have : validCipherChar d = true := by
          rcases hvd : validCipherChar d
          · exact absurd hvd hcon
          · rfl
        rw [validCipherChar_iff_charToBinary, hv] at this
        simp at this
      · show (match charToBinary d with
          | some (b1, b2) =>
            (CRC32.charsToBitsE rest).map (fun bs => b1 :: b2 :: bs)
          | none => .error (.invalidChar d)) = _
        rw [hv]
    · have hd : validCipherChar d = true := by
        rw [validCipherChar_iff_charToBinary, hv]; rfl
      have hcr : c ∈ rest := by
        rcases List.mem_cons.mp hc with hcd | hcr
        · subst hcd; rw [hd] at hbad; cases hbad
        · exact hcr
      obtain ⟨ch, hch1, hch2⟩ := ih hcr
      refine ⟨ch, hch1, ?_⟩
      show (match charToBinary d with
        | some (b1, b2) =>
          (CRC32.charsToBitsE rest).map (fun bs => b1 :: b2 :: bs)
        | none => .error (.invalidChar d)) = _
      rw [hv, hch2]
      rfl

theorem charsToBits_toOI1String (c : Nat) :
    charsToBits (CRC32.toOI1String c) =
      byteToBits (c % 2 ^ 32 / 2 ^ 24 % 256) ++
      byteToBits (c % 2 ^ 32 / 2 ^ 16 % 256) ++
      byteToBits (c % 2 ^ 32 / 2 ^ 8 % 256) ++
      byteToBits (c % 2 ^ 32 % 256) := by
  rw [toOI1String_eq]
  rw [charsToBits_append, charsToBits_append, charsToBits_append]
  rw [charsToBits_binaryToChars (by rw [byteToBits_length]),
    charsToBits_binaryToChars (by rw [byteToBits_length]),
    charsToBits_binaryToChars (by rw [byteToBits_length]),
    charsToBits_binaryToChars (by rw [byteToBits_length])]

theorem fromOI1String_toOI1String {c : Nat} (hc : c < 2 ^ 32) :
    CRC32.fromOI1String (CRC32.toOI1String c) = .ok c := by
  unfold CRC32.fromOI1String
  rw [if_neg (by rw [toOI1String_length]; omega)]
  rw [charsToBitsE_ok (toOI1String_valid c)]
  rw [charsToBits_toOI1String]
  simp only [Except.map]
  congr 1
  rw [natOfBits_append, natOfBits_append, natOfBits_append]
  simp only [natOfBits_byteToBits, byteToBits_length, List.length_append]
  have hm : c % 2 ^ 32 = c := Nat.mod_eq_of_lt hc
  rw [hm]
  norm_num
  omega

end OI1

namespace OI1

/-! Decode-path structural lemmas. -/

theorem detectFormat_eq (ct : List Char) :
    detectFormat ct =
      if 16 < ct.length ∧ (ct.length - 16) % 4 = 0 then
        ⟨"v2", true, true, some (ct.length - 16), some 16⟩
      else if ct.length % 4 = 0 ∧ 0 < ct.length then
        ⟨"v1", false, true, some ct.length, some 0⟩
      else ⟨"unknown", false, false, none, none⟩ := by
  unfold detectFormat
  by_cases h0 : ct.length = 0
  · rw [if_pos h0, if_neg (by omega), if_neg (by omega)]
  · rw [if_neg h0]

theorem findInvalidChar_none {l : List Char}
    (h : ∀ c ∈ l, validCipherChar c = true) :
    ∀ i, findInvalidChar l i = none := by
  induction l with
  | nil => intro i; rfl
  | cons c rest ih =>
    intro i
    show (if validCipherChar c then findInvalidChar rest (i + 1)
      else some (c, i + 1)) = none
    rw [if_pos (h c (by simp))]
    exact ih (fun x hx => h x (by simp [hx])) (i + 1)

theorem findInvalidChar_of_none {l : List Char} :
    ∀ i, findInvalidChar l i = none →
      ∀ c ∈ l, validCipherChar c = true := by
  induction l with
  | nil => intro i _ c hc; exact absurd hc (List.not_mem_nil c)
  | cons d rest ih =>
    intro i h c hc
    have hsplit : (if validCipherChar d then findInvalidChar rest (i + 1)
        else some (d, i + 1)) = none := h
    by_cases hd : validCipherChar d = true
    · rw [if_pos hd] at hsplit
      rcases List.mem_cons.mp hc with hcd | hcr
      · subst hcd; exact hd
      · exact ih (i + 1) hsplit c hcr
    · rw [if_neg hd] at hsplit
      cases hsplit

theorem findInvalidChar_first {pre : List Char} {ch : Char}
    (hpre : ∀ c ∈ pre, validCipherChar c = true)
    (hch : validCipherChar ch = false) (suf : List Char) :
    ∀ i, findInvalidChar (pre ++ ch :: suf) i =
      some (ch, i + pre.length + 1) := by
  induction pre with
  | nil =>
    intro i
    show (if validCipherChar ch then _ else some (ch, i + 1)) = _
    rw [if_neg (by rw [hch]; simp)]
    simp
  | cons d pre ih =>
    intro i
    show (if validCipherChar d then
      findInvalidChar (pre ++ ch :: suf) (i + 1) else _) = _
    rw [if_pos (hpre d (by simp)),
      ih (fun x hx => hpre x (by simp [hx])) (i + 1)]
    simp only [List.length_cons]
    congr 2
    omega

theorem validateCiphertext_ok {ct : List Char} (hne : ct ≠ [])
    (h : ∀ c ∈ ct, validCipherChar c = true) :
    validateCiphertext ct = ⟨true, none⟩ := by
  unfold validateCiphertext
  rw [if_neg hne, findInvalidChar_none h 0]

theorem validateCiphertext_valid_of_ok {ct : List Char}
    (h : (validateCiphertext ct).error = none) :
    ∀ c ∈ ct, validCipherChar c = true := by
  unfold validateCiphertext at h
  by_cases hne : ct = []
  · rw [if_pos hne] at h; cases h
  · rw [if_neg hne] at h
    rcases hf : findInvalidChar ct 0 with _ | ⟨c, pos⟩
    · exact findInvalidChar_of_none 0 hf
    · rw [hf] at h; cases h

theorem map_mod_256_eq {bytes : List Nat} (h : ∀ b ∈ bytes, b < 256) :
    bytes.map (· % 256) = bytes := by
  induction bytes with
  | nil => rfl
  | cons b rest ih =>
    simp only [List.map, List.cons.injEq]
    exact ⟨Nat.mod_eq_of_lt (h b (by simp)),
      ih (fun x hx => h x (by simp [hx]))⟩

theorem utf8Encode_lt_256 {s : List Nat} (hs : ∀ v ∈ s, validScalar v) :
    ∀ b ∈ utf8Encode s, b < 256 := by
  induction s with
  | nil => intro b hb; exact absurd hb (List.not_mem_nil b)
  | cons v rest ih =>
    intro b hb
    show b < 256
    have : b ∈ utf8EncodeChar v ++ utf8Encode rest := hb
    rcases List.mem_append.mp this with h | h
    · exact utf8EncodeChar_lt_256 (hs v (by simp)) b h
    · exact ih (fun x hx => hs x (by simp [hx])) b h

theorem utf8Encode_ne_nil {s : List Nat} (hne : s ≠ []) :
    utf8Encode s ≠ [] := by
  rcases s with _ | ⟨v, rest⟩
  · exact absurd rfl hne
  · show utf8EncodeChar v ++ utf8Encode rest ≠ []
    rcases henc : utf8EncodeChar v with _ | ⟨b, bs⟩
    · exact absurd henc (utf8EncodeChar_ne_nil v)
    · simp

theorem bytesToBits_even (bs : List Nat) :
    (bytesToBits bs).length % 2 = 0 := by
  rw [bytesToBits_length]; omega

theorem mainCipher_length (bytes : List Nat) :
    (binaryToChars (bytesToBits bytes)).length = 4 * bytes.length := by
  rw [binaryToChars_length (bytesToBits_even bytes), bytesToBits_length]
  omega

theorem encode_eq_of_ne_nil {s : List Nat} (hne : s ≠ []) :
    encode s =
      binaryToChars (bytesToBits (utf8Encode s)) ++
      CRC32.toOI1String (CRC32.calculate (utf8Encode s)) := by
  unfold encode
  rw [if_neg hne]

theorem encode_length_of_ne_nil {s : List Nat} (hne : s ≠ []) :
    (encode s).length = 4 * (utf8Encode s).length + 16 := by
  rw [encode_eq_of_ne_nil hne]
  rw [List.length_append, mainCipher_length, toOI1String_length]

theorem decodeCipher_of_utf8 {m : List Char} {pt : List Nat}
    (h : utf8Decode (bitsToBytes (charsToBits m)) = some pt) :
    decodeCipher m = .ok pt := by
  show (match utf8Decode (bitsToBytes (charsToBits m)) with
    | some pt => Except.ok pt
    | none => Except.error
        (DecodeError.decodingError (bitsToBytes (charsToBits m)))) =
    Except.ok pt
  rw [h]

end OI1

namespace OI1

/-- Unfolding equation for `decode`. -/
theorem decode_eq (ct : List Char) :
    decode ct =
      if ct = [] then .ok ⟨[], false, "empty", none, none⟩
      else if (detectFormat ct).isValid = false then .error .formatError
      else
        match (validateCiphertext ct).error with
        | some e => .error (.validationError e)
        | none =>
          if (detectFormat ct).version = "v2" then
            decodeWithCRC ct (detectFormat ct)
          else decodeWithoutCRC ct := by
  unfold decode
  rfl

/-- Unfolding equation for `decodeWithCRC`. -/
theorem decodeWithCRC_eq (ct : List Char) (fi : FormatInfo) :
    decodeWithCRC ct fi =
      match CRC32.fromOI1String (ct.drop (ct.length - 16)) with
      | .error e => .error (.crcParseError e)
      | .ok expectedCRC =>
        match decodeCipher (ct.take (fi.mainCipherLength.getD 0)) with
        | .error e => .error e
        | .ok plaintext =>
          if CRC32.calculate (utf8Encode plaintext) = expectedCRC then
            .ok ⟨plaintext, true, "v2", some expectedCRC,
              some (CRC32.calculate (utf8Encode plaintext))⟩
          else
            .error (.integrityError expectedCRC
              (CRC32.calculate (utf8Encode plaintext))) := by
  unfold decodeWithCRC
  rfl

/-- Evaluation of `decodeWithCRC` when every stage succeeds. -/
theorem decodeWithCRC_ok {ct : List Char} {fi : FormatInfo} {exp : Nat}
    {pt : List Nat}
    (hfrom : CRC32.fromOI1String (ct.drop (ct.length - 16)) = .ok exp)
    (hciph : decodeCipher (ct.take (fi.mainCipherLength.getD 0)) = .ok pt)
    (hcrc : CRC32.calculate (utf8Encode pt) = exp) :
    decodeWithCRC ct fi = .ok ⟨pt, true, "v2", some exp, some exp⟩ := by
  rw [decodeWithCRC_eq, hfrom, hciph]
  simp [hcrc]

/-- The v2 happy path: encoding any nonempty valid string decodes back
to itself with the checksum verified. -/
theorem decode_encode_ok {s : List Nat} (hs : ∀ v ∈ s, validScalar v)
    (hne : s ≠ []) :
    decode (encode s) =
      .ok ⟨s, true, "v2", some (CRC32.calculate (utf8Encode s)),
        some (CRC32.calculate (utf8Encode s))⟩ := by
  have hblt := utf8Encode_lt_256 hs
  have hbne := utf8Encode_ne_nil hne
  have hbpos : 1 ≤ (utf8Encode s).length := by
    rcases hb : utf8Encode s with _ | ⟨b, bs⟩
    · exact absurd hb hbne
    · simp
  have henc := encode_eq_of_ne_nil hne
  have hctlen := encode_length_of_ne_nil hne
  have hctne : encode s ≠ [] := by
    intro hnil
    rw [hnil] at hctlen
    simp at hctlen
  have hmlen := mainCipher_length (utf8Encode s)
  have hfi : detectFormat (encode s) =
      ⟨"v2", true, true, some (4 * (utf8Encode s).length), some 16⟩ := by
    rw [detectFormat_eq, hctlen, if_pos (by omega)]
    have h4 : 4 * (utf8Encode s).length + 16 - 16 =
        4 * (utf8Encode s).length := by omega
    rw [h4]
  have hvalid : ∀ c ∈ encode s, validCipherChar c = true := by
    intro c hc
    rw [henc] at hc
    rcases List.mem_append.mp hc with h | h
    · exact binaryToChars_valid c h
    · exact toOI1String_valid _ c h
  have hval := validateCiphertext_ok hctne hvalid
  have hdrop : (encode s).drop ((encode s).length - 16) =
      CRC32.toOI1String (CRC32.calculate (utf8Encode s)) := by
    rw [hctlen, henc]
    have h4 : 4 * (utf8Encode s).length + 16 - 16 =
        (binaryToChars (bytesToBits (utf8Encode s))).length := by
      rw [hmlen]
      omega
    rw [h4, List.drop_left]
  have hciph : decodeCipher
      ((encode s).take (4 * (utf8Encode s).length)) = .ok s := by
    have htake : (encode s).take (4 * (utf8Encode s).length) =
        binaryToChars (bytesToBits (utf8Encode s)) := by
      rw [henc, ← hmlen, List.take_left]
    rw [htake]
    apply decodeCipher_of_utf8
    rw [charsToBits_binaryToChars (bytesToBits_even (utf8Encode s)),
      bitsToBytes_bytesToBits, map_mod_256_eq hblt]
    exact utf8Decode_utf8Encode hs
  rw [decode_eq, if_neg hctne, hfi, hval]
  show (if (FormatInfo.version ⟨"v2", true, true,
      some (4 * (utf8Encode s).length), some 16⟩) = "v2" then
    decodeWithCRC (encode s) ⟨"v2", true, true,
      some (4 * (utf8Encode s).length), some 16⟩
    else decodeWithoutCRC (encode s)) = _
  rw [if_pos (by simp)]
  exact decodeWithCRC_ok
    (by rw [hdrop]
        exact fromOI1String_toOI1String
          (CRC32.calculate_lt (utf8Encode s)))
    hciph rfl

/-- The v1 path: a legacy ciphertext with valid symbols and valid UTF-8
content decodes with no checksum claim. -/
theorem decode_v1_ok {ct : List Char} {pt : List Nat}
    (hfmt : (detectFormat ct).version = "v1")
    (hvalid : ∀ c ∈ ct, validCipherChar c = true)
    (hpt : utf8Decode (bitsToBytes (charsToBits ct)) = some pt) :
    decode ct = .ok ⟨pt, false, "v1", none, none⟩ := by
  rw [detectFormat_eq] at hfmt
  by_cases hc2 : 16 < ct.length ∧ (ct.length - 16) % 4 = 0
  · rw [if_pos hc2] at hfmt
    simp at hfmt
  · rw [if_neg hc2] at hfmt
    by_cases hc1 : ct.length % 4 = 0 ∧ 0 < ct.length
    · rw [if_pos hc1] at hfmt
      have hctne : ct ≠ [] := by
        intro hnil
        rw [hnil] at hc1
        simp at hc1
      have hfi : detectFormat ct =
          ⟨"v1", false, true, some ct.length, some 0⟩ := by
        rw [detectFormat_eq, if_neg hc2, if_pos hc1]
      rw [decode_eq, if_neg hctne, hfi,
        validateCiphertext_ok hctne hvalid]
      show (if (FormatInfo.version
          ⟨"v1", false, true, some ct.length, some 0⟩) = "v2" then
        decodeWithCRC ct ⟨"v1", false, true, some ct.length, some 0⟩
        else decodeWithoutCRC ct) = _
      rw [if_neg (by simp)]
      unfold decodeWithoutCRC
      rw [decodeCipher_of_utf8 hpt]
    · rw [if_neg hc1] at hfmt
      simp at hfmt

end OI1

namespace OI1

/-- Inversion for `decodeCipher` success. -/
theorem decodeCipher_inv {m : List Char} {pt : List Nat}
    (h : decodeCipher m = .ok pt) :
    utf8Decode (bitsToBytes (charsToBits m)) = some pt := by
  change (match utf8Decode (bitsToBytes (charsToBits m)) with
    | some pt => Except.ok pt
    | none => Except.error
        (DecodeError.decodingError (bitsToBytes (charsToBits m)))) =
    Except.ok pt at h
  rcases hu : utf8Decode (bitsToBytes (charsToBits m)) with _ | pt2
  · rw [hu] at h; cases h
  · rw [hu] at h
    simp only [Except.ok.injEq] at h
    subst h
    rfl

/-- Inversion for a successful v2 decode: the format check passed, all
symbols are valid, the main cipher decodes to the plaintext, and the
stored checksum matches the recomputed one. -/
theorem decode_v2_inversion {ct : List Char} {r : DecodeResult}
    (h : decode ct = .ok r) (hv2 : r.formatVersion = "v2") :
    16 < ct.length ∧ (ct.length - 16) % 4 = 0 ∧
    (∀ c ∈ ct, validCipherChar c = true) ∧
    utf8Decode (bitsToBytes (charsToBits (ct.take (ct.length - 16)))) =
      some r.plaintext ∧
    CRC32.fromOI1String (ct.drop (ct.length - 16)) =
      .ok (CRC32.calculate (utf8Encode r.plaintext)) := by
  rw [decode_eq] at h
  by_cases hnil : ct = []
  · rw [if_pos hnil] at h
    simp only [Except.ok.injEq] at h
    subst h
    simp at hv2
  · rw [if_neg hnil, detectFormat_eq] at h
    by_cases hc2 : 16 < ct.length ∧ (ct.length - 16) % 4 = 0
    · rw [if_pos hc2, if_neg (by simp)] at h
      rcases hverr : (validateCiphertext ct).error with _ | e
      · rw [hverr] at h
        have hvalid := validateCiphertext_valid_of_ok hverr
        rw [if_pos (by simp)] at h
        rw [decodeWithCRC_eq] at h
        rcases hfrom : CRC32.fromOI1String (ct.drop (ct.length - 16))
          with e | exp
        · rw [hfrom] at h; cases h
        · rw [hfrom] at h
          have hproj : (FormatInfo.mainCipherLength
              ⟨"v2", true, true, some (ct.length - 16),
                some 16⟩).getD 0 = ct.length - 16 := rfl
          rw [hproj] at h
          rcases hciph : decodeCipher (ct.take (ct.length - 16))
            with e | pt
          · rw [hciph] at h; cases h
          · rw [hciph] at h
            change (if CRC32.calculate (utf8Encode pt) = exp then
                (Except.ok ⟨pt, true, "v2", some exp,
                  some (CRC32.calculate (utf8Encode pt))⟩ :
                  Except DecodeError DecodeResult)
              else Except.error (DecodeError.integrityError exp
                (CRC32.calculate (utf8Encode pt)))) = Except.ok r at h
            by_cases hcrc : CRC32.calculate (utf8Encode pt) = exp
            · rw [if_pos hcrc] at h
              simp only [Except.ok.injEq] at h
              subst h
              refine ⟨hc2.1, hc2.2, hvalid, decodeCipher_inv hciph, ?_⟩
              show (Except.ok exp : Except CRC32.CrcError Nat) =
                Except.ok (CRC32.calculate (utf8Encode pt))
              rw [hcrc]
            · rw [if_neg hcrc] at h; cases h
      · rw [hverr] at h; cases h
    · rw [if_neg hc2] at h
      by_cases hc1 : ct.length % 4 = 0 ∧ 0 < ct.length
      · rw [if_pos hc1, if_neg (by simp)] at h
        rcases hverr : (validateCiphertext ct).error with _ | e
        · rw [hverr] at h
          rw [if_neg (by simp)] at h
          unfold decodeWithoutCRC at h
          rcases hciph : decodeCipher ct with e | pt
          · rw [hciph] at h; cases h
          · rw [hciph] at h
            simp only [Except.ok.injEq] at h
            subst h
            simp at hv2
        · rw [hverr] at h; cases h
      · rw [if_neg hc1, if_pos rfl] at h
        cases h

/-- Aligned valid symbol strings are recoverable from their bytes, so
the symbols-to-bytes map is injective on them. -/
theorem symbols_injective {m1 m2 : List Char}
    (hv1 : ∀ c ∈ m1, validCipherChar c = true)
    (hv2 : ∀ c ∈ m2, validCipherChar c = true)
    (hl1 : m1.length % 4 = 0) (hl2 : m2.length % 4 = 0)
    (heq : bitsToBytes (charsToBits m1) = bitsToBytes (charsToBits m2)) :
    m1 = m2 := by
  have hb1 : (charsToBits m1).length % 8 = 0 := by
    rw [charsToBits_length hv1]; omega
  have hb2 : (charsToBits m2).length % 8 = 0 := by
    rw [charsToBits_length hv2]; omega
  have h1 : charsToBits m1 = charsToBits m2 := by
    rw [← bytesToBits_bitsToBytes (charsToBits m1) hb1,
      ← bytesToBits_bitsToBytes (charsToBits m2) hb2, heq]
  rw [← binaryToChars_charsToBits hv1, ← binaryToChars_charsToBits hv2,
    h1]

end OI1

namespace OI1

/-- Evaluation of `decodeCipher` when UTF-8 recovery fails. -/
theorem decodeCipher_err {m : List Char}
    (h : utf8Decode (bitsToBytes (charsToBits m)) = none) :
    decodeCipher m =
      .error (.decodingError (bitsToBytes (charsToBits m))) := by
  show (match utf8Decode (bitsToBytes (charsToBits m)) with
    | some pt => Except.ok pt
    | none => Except.error
        (DecodeError.decodingError (bitsToBytes (charsToBits m)))) = _
  rw [h]

/-- Propagation of a cipher error through `decodeWithCRC`. -/
theorem decodeWithCRC_cipher_err {ct : List Char} {fi : FormatInfo}
    {exp : Nat} {e : DecodeError}
    (hfrom : CRC32.fromOI1String (ct.drop (ct.length - 16)) = .ok exp)
    (hciph : decodeCipher (ct.take (fi.mainCipherLength.getD 0)) =
      .error e) :
    decodeWithCRC ct fi = .error e := by
  rw [decodeWithCRC_eq, hfrom, hciph]

/-- Evaluation of `decodeWithCRC` down to the final checksum
comparison. -/
theorem decodeWithCRC_eval {ct : List Char} {fi : FormatInfo}
    {exp : Nat} {pt : List Nat}
    (hfrom : CRC32.fromOI1String (ct.drop (ct.length - 16)) = .ok exp)
    (hciph : decodeCipher (ct.take (fi.mainCipherLength.getD 0)) =
      .ok pt) :
    decodeWithCRC ct fi =
      if CRC32.calculate (utf8Encode pt) = exp then
        .ok ⟨pt, true, "v2", some exp,
          some (CRC32.calculate (utf8Encode pt))⟩
      else
        .error (.integrityError exp
          (CRC32.calculate (utf8Encode pt))) := by
  rw [decodeWithCRC_eq, hfrom, hciph]

/-- A nonempty ciphertext of v2 shape with valid symbols reaches
`decodeWithCRC`. -/
theorem decode_v2_eval {ct : List Char} (hne : ct ≠ [])
    (h16 : 16 < ct.length) (h4 : (ct.length - 16) % 4 = 0)
    (hvalid : ∀ c ∈ ct, validCipherChar c = true) :
    decode ct = decodeWithCRC ct
      ⟨"v2", true, true, some (ct.length - 16), some 16⟩ := by
  have hfi : detectFormat ct =
      ⟨"v2", true, true, some (ct.length - 16), some 16⟩ := by
    rw [detectFormat_eq, if_pos ⟨h16, h4⟩]
  rw [decode_eq, if_neg hne, hfi, if_neg (by simp),
    validateCiphertext_ok hne hvalid]
  change (if FormatInfo.version
      ⟨"v2", true, true, some (ct.length - 16), some 16⟩ = "v2" then
    decodeWithCRC ct ⟨"v2", true, true, some (ct.length - 16), some 16⟩
    else decodeWithoutCRC ct) = _
  rw [if_pos rfl]

/-- Flipping one main-cipher symbol of a successfully decoded v2
ciphertext: decoding the result fails with a UTF-8 decoding error or a
checksum integrity error, unless the recovered byte strings collide
under CRC-32 (they always differ as byte strings). -/
theorem decode_flip_v2 {ct : List Char} {r : DecodeResult} {i : Nat}
    {c2 : Char}
    (h : decode ct = .ok r) (hv2 : r.formatVersion = "v2")
    (hi : i < ct.length - 16) (hc2v : validCipherChar c2 = true)
    (hdiff : ct[i]? ≠ some c2) :
    (∃ bs, decode (ct.set i c2) = .error (.decodingError bs)) ∨
    (∃ act, decode (ct.set i c2) =
        .error (.integrityError
          (CRC32.calculate (utf8Encode r.plaintext)) act) ∧
      act ≠ CRC32.calculate (utf8Encode r.plaintext)) ∨
    (bitsToBytes (charsToBits ((ct.take (ct.length - 16)).set i c2)) ≠
        bitsToBytes (charsToBits (ct.take (ct.length - 16))) ∧
      CRC32.calculate (bitsToBytes
          (charsToBits ((ct.take (ct.length - 16)).set i c2))) =
        CRC32.calculate (bitsToBytes
          (charsToBits (ct.take (ct.length - 16))))) := by
  obtain ⟨h16, h4, hvalid, hpt, hfrom⟩ := decode_v2_inversion h hv2
  have hlen' : (ct.set i c2).length = ct.length := by simp
  have hvalid' : ∀ c ∈ ct.set i c2, validCipherChar c = true := by
    intro c hc
    rcases List.mem_or_eq_of_mem_set hc with hmem | heq
    · exact hvalid c hmem
    · subst heq; exact hc2v
  have hne' : ct.set i c2 ≠ [] := by
    intro hnil
    have hlen0 : ct.length = 0 := by
      rw [← hlen', hnil]
      rfl
    omega
  have hdrop' : (ct.set i c2).drop ((ct.set i c2).length - 16) =
      ct.drop (ct.length - 16) := by
    rw [hlen', List.drop_set, if_pos (by omega)]
  have htake' : (ct.set i c2).take ((ct.set i c2).length - 16) =
      (ct.take (ct.length - 16)).set i c2 := by
    rw [hlen', List.set_take]
  have hm'ne : (ct.take (ct.length - 16)).set i c2 ≠
      ct.take (ct.length - 16) := by
    intro heq
    have hi_lt : i < (ct.take (ct.length - 16)).length := by
      rw [List.length_take]
      omega
    have h1 : ((ct.take (ct.length - 16)).set i c2)[i]? = some c2 :=
      List.getElem?_set_self hi_lt
    rw [heq, List.getElem?_take, if_pos hi] at h1
    exact hdiff h1
  have hvm : ∀ c ∈ ct.take (ct.length - 16), validCipherChar c = true :=
    fun c hc => hvalid c (List.mem_of_mem_take hc)
  have hvm' : ∀ c ∈ (ct.take (ct.length - 16)).set i c2,
      validCipherChar c = true := by
    intro c hc
    rcases List.mem_or_eq_of_mem_set hc with hmem | heq
    · exact hvm c hmem
    · subst heq; exact hc2v
  have hml4 : (ct.take (ct.length - 16)).length % 4 = 0 := by
    rw [List.length_take]
    have : min (ct.length - 16) ct.length = ct.length - 16 := by omega
    rw [this]
    exact h4
  have hm'l4 : ((ct.take (ct.length - 16)).set i c2).length % 4 = 0 := by
    rw [List.length_set]
    exact hml4
  have hbytes_ne :
      bitsToBytes (charsToBits ((ct.take (ct.length - 16)).set i c2)) ≠
      bitsToBytes (charsToBits (ct.take (ct.length - 16))) := by
    intro heq
    exact hm'ne (symbols_injective hvm' hvm hm'l4 hml4 heq)
  have hdeceq := decode_v2_eval hne' (by omega) (by rw [hlen']; exact h4)
    hvalid'
  have hfrom2 : CRC32.fromOI1String
      ((ct.set i c2).drop ((ct.set i c2).length - 16)) =
      .ok (CRC32.calculate (utf8Encode r.plaintext)) := by
    rw [hdrop']
    exact hfrom
  rcases hu : utf8Decode (bitsToBytes
      (charsToBits ((ct.take (ct.length - 16)).set i c2))) with _ | pt2
  · -- UTF-8 failure: DecodingError
    left
    refine ⟨bitsToBytes (charsToBits ((ct.take (ct.length - 16)).set i c2)),
      ?_⟩
    rw [hdeceq]
    apply decodeWithCRC_cipher_err hfrom2
    show decodeCipher ((ct.set i c2).take ((ct.set i c2).length - 16)) =
      _
    rw [htake']
    exact decodeCipher_err hu
  · have hciph2 : decodeCipher
        ((ct.set i c2).take ((ct.set i c2).length - 16)) = .ok pt2 := by
      rw [htake']
      exact decodeCipher_of_utf8 hu
    have hpt2bytes : utf8Encode pt2 =
        bitsToBytes (charsToBits ((ct.take (ct.length - 16)).set i c2)) :=
      utf8Encode_utf8Decode _ _ hu
    have hptbytes : utf8Encode r.plaintext =
        bitsToBytes (charsToBits (ct.take (ct.length - 16))) :=
      utf8Encode_utf8Decode _ _ hpt
    by_cases hcoll : CRC32.calculate (utf8Encode pt2) =
        CRC32.calculate (utf8Encode r.plaintext)
    · right; right
      refine ⟨hbytes_ne, ?_⟩
      rw [← hpt2bytes, ← hptbytes]
      exact hcoll
    · right; left
      refine ⟨CRC32.calculate (utf8Encode pt2), ?_, hcoll⟩
      rw [hdeceq]
      rw [@decodeWithCRC_eval (ct.set i c2)
        ⟨"v2", true, true, some ((ct.set i c2).length - 16), some 16⟩
        (CRC32.calculate (utf8Encode r.plaintext)) pt2 hfrom2 hciph2,
        if_neg hcoll]

end OI1

namespace OI1

/-! Claim theorems. -/

set_option maxRecDepth 100000 in
/-- Claim C1, counterexample: for the empty string the claim fails —
`decode(encode(""))` reports `checksumVerified = false` (and
formatVersion "empty"), not `true` as the claim asserts for every
string including the empty one. -/
theorem c1_counterexample :
    decode (encode []) =
      .ok ⟨[], false, "empty", none, none⟩ := by
  decide

/-- Claim C1 (amended): for every nonempty UTF-8 string s,
`decode(encode(s))` succeeds with `plaintext = s` and
`checksumVerified = true`; the empty string decodes back to the empty
string but with `checksumVerified = false`. -/
theorem c1_round_trip (s : List Nat) (hv : ∀ v ∈ s, validScalar v)
    (hne : s ≠ []) :
    ∃ r, decode (encode s) = .ok r ∧ r.plaintext = s ∧
      r.crcVerified = true :=
  ⟨_, decode_encode_ok hv hne, rfl, rfl⟩

/-- Witness for C1 at s = "Hi" (code points 72, 105). -/
theorem c1_witness :
    ∃ r, decode (encode [72, 105]) = .ok r ∧ r.plaintext = [72, 105] ∧
      r.crcVerified = true :=
  c1_round_trip [72, 105] (by decide) (by decide)

/-- Claim C2: `detectFormat` classifies by length exactly as specified:
v2 iff length exceeds 16 and length minus 16 is a multiple of 4,
otherwise v1 iff length is a positive multiple of 4, otherwise unknown
and invalid; v2 reports main cipher length minus 16 with 16 checksum
symbols, v1 reports the full length with 0 checksum symbols. -/
theorem c2_format_detection (ct : List Char) :
    ((detectFormat ct).version = "v2" ↔
      16 < ct.length ∧ (ct.length - 16) % 4 = 0) ∧
    ((detectFormat ct).version = "v1" ↔
      ¬(16 < ct.length ∧ (ct.length - 16) % 4 = 0) ∧
      ct.length % 4 = 0 ∧ 0 < ct.length) ∧
    ((detectFormat ct).version = "unknown" ↔
      ¬(16 < ct.length ∧ (ct.length - 16) % 4 = 0) ∧
      ¬(ct.length % 4 = 0 ∧ 0 < ct.length)) ∧
    ((detectFormat ct).version = "unknown" →
      (detectFormat ct).isValid = false) ∧
    ((detectFormat ct).version = "v2" →
      (detectFormat ct).mainCipherLength = some (ct.length - 16) ∧
      (detectFormat ct).crcLength = some 16) ∧
    ((detectFormat ct).version = "v1" →
      (detectFormat ct).mainCipherLength = some ct.length ∧
      (detectFormat ct).crcLength = some 0) := by
  rw [detectFormat_eq]
  by_cases hc2 : 16 < ct.length ∧ (ct.length - 16) % 4 = 0
  · rw [if_pos hc2]
    simp [hc2]
  · rw [if_neg hc2]
    by_cases hc1 : ct.length % 4 = 0 ∧ 0 < ct.length
    · rw [if_pos hc1]
      simp [hc2, hc1]
    · rw [if_neg hc1]
      simp [hc2, hc1]

/-- Witness for C2 at the spec scenario "0OIO" (length 4 is v1). -/
theorem c2_witness :
    (detectFormat ['0', 'O', 'I', 'O']).version = "v1" ∧
    (detectFormat ['0', 'O', 'I', 'O']).mainCipherLength = some 4 ∧
    (detectFormat ['0', 'O', 'I', 'O']).crcLength = some 0 := by
  have h := c2_format_detection ['0', 'O', 'I', 'O']
  have hv1 : (detectFormat ['0', 'O', 'I', 'O']).version = "v1" :=
    h.2.1.mpr ⟨by decide, by decide, by decide⟩
  have hf := h.2.2.2.2.2 hv1
  exact ⟨hv1, hf.1, hf.2⟩

set_option maxRecDepth 100000 in
/-- Claim C3: `CRC32.calculate` equals the standard IEEE 802.3 bit-at-
a-time CRC-32 (polynomial 0xEDB88320, initial value 0xFFFFFFFF, final
complement), returns an unsigned 32-bit value, and matches the standard
check value CRC32("123456789") = 0xCBF43926. -/
theorem c3_crc32_standard :
    (∀ bytes : List Nat,
      CRC32.calculate bytes = CRC32.bitwiseSpec bytes ∧
      CRC32.calculate bytes < 2 ^ 32) ∧
    CRC32.calculate [49, 50, 51, 52, 53, 54, 55, 56, 57] =
      0xCBF43926 := by
  refine ⟨fun bytes => ⟨CRC32.calculate_eq_bitwiseSpec bytes,
    CRC32.calculate_lt bytes⟩, ?_⟩
  decide

set_option maxRecDepth 100000 in
/-- Claim C4, counterexample: flipping the first main-cipher symbol of
the v2 ciphertext of "Hi" makes the recovered bytes invalid UTF-8, so
`decode` fails with a DecodingError — not with the IntegrityError the
claim requires (and no checksum collision is involved). -/
theorem c4_counterexample :
    decode (encode [72, 105]) =
      .ok ⟨[72, 105], true, "v2", some 1293356558, some 1293356558⟩ ∧
    (0 : Nat) < (encode [72, 105]).length - 16 ∧
    validCipherChar 'l' = true ∧
    (encode [72, 105])[0]? ≠ some 'l' ∧
    decode ((encode [72, 105]).set 0 'l') =
      .error (.decodingError [200, 105]) := by
  refine ⟨by decide, by decide, by decide, by decide, by decide⟩

/-- Claim C4 (amended): replacing any main-cipher symbol of a
successfully decoded v2 ciphertext by a different alphabet symbol makes
`decode` fail with an IntegrityError or with a DecodingError (the
altered bytes may no longer be valid UTF-8), except in the case of a
CRC-32 collision between the two (always distinct) recovered byte
strings. -/
theorem c4_checksum_sensitivity {ct : List Char} {r : DecodeResult}
    {i : Nat} {c2 : Char}
    (h : decode ct = .ok r) (hv2 : r.formatVersion = "v2")
    (hi : i < ct.length - 16) (hc2v : validCipherChar c2 = true)
    (hdiff : ct[i]? ≠ some c2) :
    (∃ bs, decode (ct.set i c2) = .error (.decodingError bs)) ∨
    (∃ act, decode (ct.set i c2) =
        .error (.integrityError
          (CRC32.calculate (utf8Encode r.plaintext)) act) ∧
      act ≠ CRC32.calculate (utf8Encode r.plaintext)) ∨
    (bitsToBytes (charsToBits ((ct.take (ct.length - 16)).set i c2)) ≠
        bitsToBytes (charsToBits (ct.take (ct.length - 16))) ∧
      CRC32.calculate (bitsToBytes
          (charsToBits ((ct.take (ct.length - 16)).set i c2))) =
        CRC32.calculate (bitsToBytes
          (charsToBits (ct.take (ct.length - 16))))) :=
  decode_flip_v2 h hv2 hi hc2v hdiff

set_option maxRecDepth 100000 in
/-- Witness for C4: the flip of the counterexample falls under the
amended claim at the ciphertext of "Hi", position 0, replacement l. -/
theorem c4_witness :
    (∃ bs, decode ((encode [72, 105]).set 0 'l') =
        .error (.decodingError bs)) ∨
    (∃ act, decode ((encode [72, 105]).set 0 'l') =
        .error (.integrityError
          (CRC32.calculate (utf8Encode
            (DecodeResult.plaintext ⟨[72, 105], true, "v2",
              some 1293356558, some 1293356558⟩))) act) ∧
      act ≠ CRC32.calculate (utf8Encode
        (DecodeResult.plaintext ⟨[72, 105], true, "v2",
          some 1293356558, some 1293356558⟩))) ∨
    (bitsToBytes (charsToBits
        (((encode [72, 105]).take ((encode [72, 105]).length - 16)).set
          0 'l')) ≠
        bitsToBytes (charsToBits
          ((encode [72, 105]).take ((encode [72, 105]).length - 16))) ∧
      CRC32.calculate (bitsToBytes (charsToBits
          (((encode [72, 105]).take
            ((encode [72, 105]).length - 16)).set 0 'l'))) =
        CRC32.calculate (bitsToBytes (charsToBits
          ((encode [72, 105]).take
            ((encode [72, 105]).length - 16))))) :=
  c4_checksum_sensitivity (by decide) (by decide) (by decide)
    (by decide) (by decide)

/-- Claim C5, counterexample: the empty string violates the length
law — its UTF-8 byte length is 0, yet `encode("")` is the empty string
of length 0, not 0 times 4 plus 16. -/
theorem c5_counterexample :
    (utf8Encode []).length = 0 ∧ encode [] = [] ∧
    (encode []).length ≠ 0 * 4 + 16 := by
  decide

/-- Claim C5 (amended): for every nonempty string s with UTF-8 byte
length n, `encode(s)` has length n times 4 plus 16; the empty string
encodes to the empty string. -/
theorem c5_length_law (s : List Nat) (hne : s ≠ []) :
    (encode s).length = (utf8Encode s).length * 4 + 16 := by
  rw [encode_length_of_ne_nil hne]
  ring

/-- Witness for C5 at s = "Hi". -/
theorem c5_witness :
    ([72, 105] : List Nat) ≠ [] ∧
    (encode [72, 105]).length = (utf8Encode [72, 105]).length * 4 + 16 :=
  ⟨by decide, c5_length_law [72, 105] (by decide)⟩

/-- Claim C6: every ciphertext classified v1 whose symbols are in the
alphabet and decode to valid UTF-8 decodes successfully, always with
`checksumVerified = false` and `formatVersion = "v1"`. -/
theorem c6_v1_compat (ct : List Char) (pt : List Nat)
    (hfmt : (detectFormat ct).version = "v1")
    (hvalid : ∀ c ∈ ct, validCipherChar c = true)
    (hpt : utf8Decode (bitsToBytes (charsToBits ct)) = some pt) :
    decode ct = .ok ⟨pt, false, "v1", none, none⟩ :=
  decode_v1_ok hfmt hvalid hpt

/-- Witness for C6 at the v1 ciphertext "0OIO" (decodes to "H"). -/
theorem c6_witness :
    decode ['0', 'O', 'I', 'O'] = .ok ⟨[72], false, "v1", none, none⟩ :=
  c6_v1_compat ['0', 'O', 'I', 'O'] [72] (by decide) (by decide)
    (by decide)

/-- Claim C7: `validateCiphertext` never throws (it is a total
function into a result value); the empty string is reported invalid
with the empty-input error, the first character outside the alphabet
is reported with its 1-based position, an all-valid nonempty string is
valid, and the spec scenario "0OIOX" reports X at position 5. -/
theorem c7_validate :
    (∀ ct : List Char, ct = [] →
      validateCiphertext ct = ⟨false, some .emptyInput⟩) ∧
    (∀ (pre : List Char) (c2 : Char) (suf : List Char),
      (∀ c ∈ pre, validCipherChar c = true) →
      validCipherChar c2 = false →
      validateCiphertext (pre ++ c2 :: suf) =
        ⟨false, some (.invalidChar c2 (pre.length + 1))⟩) ∧
    (∀ ct : List Char, ct ≠ [] →
      (∀ c ∈ ct, validCipherChar c = true) →
      validateCiphertext ct = ⟨true, none⟩) ∧
    validateCiphertext ['0', 'O', 'I', 'O', 'X'] =
      ⟨false, some (.invalidChar 'X' 5)⟩ := by
  refine ⟨?_, ?_, ?_, by decide⟩
  · intro ct h
    subst h
    rfl
  · intro pre c2 suf hpre hbad
    unfold validateCiphertext
    rw [if_neg (by simp), findInvalidChar_first hpre hbad suf 0]
    simp
  · intro ct hne hvalid
    exact validateCiphertext_ok hne hvalid

/-- Witness for C7 at "0OIOX" and at the empty string. -/
theorem c7_witness :
    validateCiphertext ['0', 'O', 'I', 'O', 'X'] =
      ⟨false, some (.invalidChar 'X' 5)⟩ ∧
    validateCiphertext [] = ⟨false, some .emptyInput⟩ :=
  ⟨c7_validate.2.2.2, c7_validate.1 [] rfl⟩

/-- Claim C8: `fromOI1String` inverts `toOI1String` on every unsigned
32-bit value; it fails with the length error whenever the input is not
exactly 16 characters, and with an invalid-character error whenever
the input has length 16 but contains a character outside the
alphabet. -/
theorem c8_crc_symbols :
    (∀ c : Nat, c < 2 ^ 32 →
      CRC32.fromOI1String (CRC32.toOI1String c) = .ok c) ∧
    (∀ s : List Char, s.length ≠ 16 →
      CRC32.fromOI1String s = .error .lengthError) ∧
    (∀ (s : List Char) (c2 : Char), s.length = 16 → c2 ∈ s →
      validCipherChar c2 = false →
      ∃ ch, validCipherChar ch = false ∧
        CRC32.fromOI1String s = .error (.invalidChar ch)) := by
  refine ⟨fun c hc => fromOI1String_toOI1String hc, ?_, ?_⟩
  · intro s hlen
    unfold CRC32.fromOI1String
    rw [if_pos hlen]
  · intro s c2 hlen hmem hbad
    obtain ⟨ch, hch1, hch2⟩ := charsToBitsE_err hmem hbad
    refine ⟨ch, hch1, ?_⟩
    unfold CRC32.fromOI1String
    rw [if_neg (by omega), hch2]
    rfl

/-- Witness for C8 at c = 0x12345678 and a length-1 input. -/
theorem c8_witness :
    CRC32.fromOI1String (CRC32.toOI1String 0x12345678) =
      .ok 0x12345678 ∧
    CRC32.fromOI1String ['O'] = .error .lengthError :=
  ⟨c8_crc_symbols.1 0x12345678 (by decide),
   c8_crc_symbols.2.1 ['O'] (by decide)⟩

set_option maxRecDepth 100000 in
/-- Claim C9: decoding the empty string succeeds with empty plaintext,
`checksumVerified = false` and `formatVersion = "empty"`. -/
theorem c9_empty_decode :
    decode [] = .ok ⟨[], false, "empty", none, none⟩ := by
  decide

/-- Claim C10: on every ciphertext `decode` accepts (v1 or v2 format
and all symbols in the alphabet), the binary string of the main-cipher
portion has length a multiple of 8, and the byte reassembly consumes
every bit — the silent drop of an incomplete trailing group is
unreachable. -/
theorem c10_no_dropped_bits (ct : List Char)
    (hvalid : ∀ c ∈ ct, validCipherChar c = true) :
    ((detectFormat ct).version = "v1" →
      (charsToBits ct).length % 8 = 0 ∧
      8 * (bitsToBytes (charsToBits ct)).length =
        (charsToBits ct).length) ∧
    ((detectFormat ct).version = "v2" →
      (charsToBits (ct.take (ct.length - 16))).length % 8 = 0 ∧
      8 * (bitsToBytes (charsToBits (ct.take (ct.length - 16)))).length =
        (charsToBits (ct.take (ct.length - 16))).length) := by
  constructor
  · intro hv1
    rw [detectFormat_eq] at hv1
    by_cases hc2 : 16 < ct.length ∧ (ct.length - 16) % 4 = 0
    · rw [if_pos hc2] at hv1; simp at hv1
    · rw [if_neg hc2] at hv1
      by_cases hc1 : ct.length % 4 = 0 ∧ 0 < ct.length
      · have h8 : (charsToBits ct).length % 8 = 0 := by
          rw [charsToBits_length hvalid]
          omega
        exact ⟨h8, bitsToBytes_length h8⟩
      · rw [if_neg hc1] at hv1; simp at hv1
  · intro hv2
    rw [detectFormat_eq] at hv2
    by_cases hc2 : 16 < ct.length ∧ (ct.length - 16) % 4 = 0
    · have hvm : ∀ c ∈ ct.take (ct.length - 16),
          validCipherChar c = true :=
        fun c hc => hvalid c (List.mem_of_mem_take hc)
      have hlen : (ct.take (ct.length - 16)).length =
          ct.length - 16 := by
        rw [List.length_take]
        omega
      have h8 : (charsToBits (ct.take (ct.length - 16))).length % 8 =
          0 := by
        rw [charsToBits_length hvm, hlen]
        omega
      exact ⟨h8, bitsToBytes_length h8⟩
    · rw [if_neg hc2] at hv2
      by_cases hc1 : ct.length % 4 = 0 ∧ 0 < ct.length
      · rw [if_pos hc1] at hv2; simp at hv2
      · rw [if_neg hc1] at hv2; simp at hv2

/-- Witness for C10 at the v1 ciphertext "0OIO". -/
theorem c10_witness :
    (charsToBits ['0', 'O', 'I', 'O']).length % 8 = 0 ∧
    8 * (bitsToBytes (charsToBits ['0', 'O', 'I', 'O'])).length =
      (charsToBits ['0', 'O', 'I', 'O']).length :=
  (c10_no_dropped_bits ['0', 'O', 'I', 'O'] (by decide)).1 (by decide)

end OI1
